import Mathlib

/-!
# Verification of the GMPE residuals engine

Shallow embedding of `smtk/residuals/gmpe_residuals.py` (residual computation and
ranking statistics for ground-motion prediction models), together with theorems
settling the specification claims about it.

Conventions of the embedding:
* NumPy float arrays of one context (all of length `N`) are embedded as functions
  `Fin n → ℝ`; element-wise NumPy arithmetic becomes point-wise arithmetic.
* Growing Python lists (the aggregated residual store) are embedded as `List ℚ`:
  the aggregation loop performs only appends, absolute values and comparisons,
  which are exact on the rationals (every float is a rational), and this keeps the
  collapse test `|x - x0| < 1e-12` decidable.
* Transcendental float functions (`np.log`, `np.exp`, `norm.pdf`, `2.0 ** x`) are
  embedded by their exact real counterparts.
* Python `None` sentinels and code paths that raise are embedded with `Option`.
-/

namespace GmpeSmtk

noncomputable section

open Real Matrix

/-! ## Residual calculator (`Residuals.calculate_residuals`,
`Residuals._get_random_effects_residuals`)

A context has `n` records.  The `Expected` cell of one (model, IMT) pair holds the
predicted mean, the total standard deviation and, when the model declares an
inter-event/intra-event decomposition, the pair of those standard-deviation
arrays (`interIntra`); the cell is `none` when the IMT is outside the model's
period range. -/

structure Expected (n : ℕ) where
  mean : Fin n → ℝ
  total : Fin n → ℝ
  interIntra : Option ((Fin n → ℝ) × (Fin n → ℝ))

/-- Residual cell of one (model, IMT) pair: the total residual array and, when
the model is decomposable, the inter-event and intra-event residual arrays. -/
structure ResidualEntry (n : ℕ) where
  total : Fin n → ℝ
  interIntra : Option ((Fin n → ℝ) × (Fin n → ℝ))

/-- Embedding of `Residuals._get_random_effects_residuals` (source lines
500-512).  `obs` are the log-observations.  NumPy broadcasting makes
`inter_res = (inter ** 2 * sum(obs - mean)) / (nvals * inter ** 2 + intra ** 2)`
an array: its `i`-th entry uses the `i`-th entries of `inter` and `intra`
(a length-1 `inter` array corresponds to a constant function here). -/
def _get_random_effects_residuals {n : ℕ} (obs mean inter intra : Fin n → ℝ)
    (normalise : Bool) : (Fin n → ℝ) × (Fin n → ℝ) :=
  let nvals : ℝ := (n : ℝ)
  let inter_res : Fin n → ℝ := fun i =>
    ((inter i) ^ 2 * (∑ j, (obs j - mean j))) / (nvals * (inter i) ^ 2 + (intra i) ^ 2)
  let intra_res : Fin n → ℝ := fun i => obs i - (mean i + inter_res i)
  if normalise then
    (fun i => inter_res i / inter i, fun i => intra_res i / intra i)
  else
    (inter_res, intra_res)

/-- Embedding of the body of `Residuals.calculate_residuals` (source lines
471-498) for one (model, IMT) cell: `None` expected cell propagates to a `None`
residual cell; otherwise the total residual is `(log obs - mean) / total` and,
when the model declares the decomposition (the `"Inter event"` key test in the
source), the random-effects residuals are attached. -/
def calculate_residuals {n : ℕ} (observations : Fin n → ℝ)
    (expected : Option (Expected n)) (normalise : Bool) : Option (ResidualEntry n) :=
  match expected with
  | none => none
  | some e =>
      let obs : Fin n → ℝ := fun i => Real.log (observations i)
      some
        { total := fun i => (obs i - e.mean i) / e.total i
          interIntra := e.interIntra.map fun p =>
            _get_random_effects_residuals obs e.mean p.1 p.2 normalise }

/-! ## Multivariate log-likelihood (`_build_matrices`, `get_multivariate_ll`)

One context (event) of the multivariate computation.  The source reads, for a
fixed (model, IMT) pair, the per-record raw observations, the expected mean,
the total standard deviation, and — when present — the inter-event and
intra-event standard deviations; the inter-event entry is either a length-1
array (single shared value, source line 249) or a full per-record vector. -/

/-- Inter-event standard-deviation entry of one event's `Expected` cell. -/
inductive InterArr (n : ℕ) where
  | single : ℝ → InterArr n
  | vec : (Fin n → ℝ) → InterArr n

/-- Value placed at record `k` of the event's column of `z_g_mat`: a length-1
array is broadcast, a vector is read per record (source lines 249-256). -/
def InterArr.valAt {n : ℕ} : InterArr n → Fin n → ℝ
  | .single v, _ => v
  | .vec f, k => f k

/-- One context as read by `_build_matrices`: `n` is `"Num. Sites"`, `decomp`
is the (`"Inter event"`, `"Intra event"`) pair of the expected cell, `none`
when only the total sigma exists. -/
structure MvEvent where
  n : ℕ
  obs : Fin n → ℝ
  mean : Fin n → ℝ
  total : Fin n → ℝ
  decomp : Option (InterArr n × (Fin n → ℝ))

/-- Global record index: the source flattens all contexts' records into one
range `0..nrecs` in context order; we index the same records by (event,
record-within-event), an order-preserving re-indexing of the same set. -/
abbrev RecIdx {neqs : ℕ} (ev : Fin neqs → MvEvent) : Type :=
  (j : Fin neqs) × Fin (ev j).n

/-- The `r_mat` vector of `_build_matrices`: the intra-event standard
deviation, or the total standard deviation when only the total sigma exists
(source lines 235-246). -/
def r_mat {neqs : ℕ} (ev : Fin neqs → MvEvent) : RecIdx ev → ℝ := fun p =>
  match (ev p.1).decomp with
  | none => (ev p.1).total p.2
  | some d => d.2 p.2

/-- The `z_g_mat` matrix of `_build_matrices`: the column of event `j` holds
the event's inter-event standard deviation at the rows of event `j`'s records
(broadcast from a length-1 array or read from a vector) and zero elsewhere;
rows of events with only a total sigma stay zero (source lines 221, 249-256). -/
def z_g_mat {neqs : ℕ} (ev : Fin neqs → MvEvent) :
    Matrix (RecIdx ev) (Fin neqs) ℝ := fun p c =>
  if c = p.1 then
    match (ev p.1).decomp with
    | none => 0
    | some d => d.1.valAt p.2
  else 0

/-- The log-observation vector of `_build_matrices` (source lines 228-231). -/
def mv_observations {neqs : ℕ} (ev : Fin neqs → MvEvent) : RecIdx ev → ℝ :=
  fun p => Real.log ((ev p.1).obs p.2)

/-- The `expected_mat` vector of `_build_matrices` (source lines 241, 248). -/
def expected_mat {neqs : ℕ} (ev : Fin neqs → MvEvent) : RecIdx ev → ℝ :=
  fun p => (ev p.1).mean p.2

/-- Total record count over all contexts (source line 218). -/
def nrecs {neqs : ℕ} (ev : Fin neqs → MvEvent) : ℕ := ∑ j, (ev j).n

/-- The covariance matrix `v_mat = diag(r_mat²) + z_g_mat · z_g_matᵀ`
(source line 259). -/
def v_mat {neqs : ℕ} (ev : Fin neqs → MvEvent) :
    Matrix (RecIdx ev) (RecIdx ev) ℝ :=
  Matrix.diagonal (fun p => (r_mat ev p) ^ 2) + z_g_mat ev * (z_g_mat ev)ᵀ

/-- Embedding of `get_multivariate_ll` (source lines 263-273):
`(nrecs·log(2π) + logdet|V| + bᵀ·solve(V, b)) / 2` with `b` the
log-observations minus the expected means; `np.linalg.slogdet` returns the log
of the absolute determinant and `scipy.linalg.solve(V, b)` is `V⁻¹·b`. -/
def get_multivariate_ll {neqs : ℕ} (ev : Fin neqs → MvEvent) : ℝ :=
  let b : RecIdx ev → ℝ := fun p => mv_observations ev p - expected_mat ev p
  ((nrecs ev : ℝ) * Real.log (2 * Real.pi) + Real.log |(v_mat ev).det| +
    Matrix.dotProduct b ((v_mat ev)⁻¹ *ᵥ b)) / 2

/-- Spec-side matrix, following the spec's words: an `N_total × N_events`
matrix whose column for event `j` holds that event's (single) inter-event
standard deviation at the rows belonging to event `j`'s records and zero
elsewhere. -/
def Z_spec {neqs : ℕ} (ev : Fin neqs → MvEvent) (σ : Fin neqs → ℝ) :
    Matrix (RecIdx ev) (Fin neqs) ℝ := fun p c => if c = p.1 then σ p.1 else 0

/-- Spec-side `φ` vector: the intra-event standard deviation, with the total
standard deviation substituted when the model has no decomposition. -/
def phi_spec {neqs : ℕ} (ev : Fin neqs → MvEvent) : RecIdx ev → ℝ := fun p =>
  match (ev p.1).decomp with
  | none => (ev p.1).total p.2
  | some d => d.2 p.2

/-- Spec-side covariance matrix `V = diag(φ²) + Z·Zᵀ`. -/
def V_spec {neqs : ℕ} (ev : Fin neqs → MvEvent) (σ : Fin neqs → ℝ) :
    Matrix (RecIdx ev) (RecIdx ev) ℝ :=
  Matrix.diagonal (fun p => phi_spec ev p ^ 2) + Z_spec ev σ * (Z_spec ev σ)ᵀ

/-- The single inter-event standard deviation of an event: the shared value
when the inter-event entry is a length-1 array, `0` when the event has no
decomposition (the inter-event contribution is zero in that case). -/
def eventSigma (e : MvEvent) : ℝ :=
  match e.decomp with
  | none => 0
  | some d =>
      match d.1 with
      | .single v => v
      | .vec f => if h : 0 < e.n then f ⟨0, h⟩ else 0

/-- An event whose inter-event entry, if present, is a single shared value
(the case the claim describes: one inter-event standard deviation per event). -/
def SimpleDecomp (e : MvEvent) : Prop :=
  ∀ d ∈ e.decomp, ∃ v, d.1 = InterArr.single v

/-! ## Statistics over the aggregated store

The statistics methods of `Residuals` read the per-(model, IMT) store; a
`None` entry marks an IMT outside the model's period range (source lines
333-341).  The store of one model is a map from IMT strings to an optional
entry. -/

/-- Aggregated residual store cell of one (model, IMT) pair after
`get_residuals` finished: the total residual array and, when decomposable, the
inter-event and intra-event arrays. -/
structure StoreEntry where
  total : List ℝ
  interIntra : Option (List ℝ × List ℝ)

/-- Residuals state of one model: its IMT list and residual store. -/
structure GmpeData where
  imts : List String
  store : String → Option StoreEntry

/-- Embedding of `np.nanmean` on a NaN-free array. -/
def nanmean (xs : List ℝ) : ℝ := xs.sum / xs.length

/-- Embedding of `np.nanstd` on a NaN-free array. -/
def nanstd (xs : List ℝ) : ℝ :=
  Real.sqrt ((xs.map fun x => (x - nanmean xs) ^ 2).sum / xs.length)

/-- Mean / standard deviation of one residual type. -/
structure ResStats where
  mean : ℝ
  stddev : ℝ

/-- Per-(model, IMT) statistics keyed by residual type. -/
structure PairStats where
  total : ResStats
  interIntra : Option (ResStats × ResStats)

/-- Embedding of `get_residual_statistics_for` (source lines 528-541). -/
def get_residual_statistics_for (e : StoreEntry) : PairStats :=
  { total := ⟨nanmean e.total, nanstd e.total⟩
    interIntra := e.interIntra.map fun p =>
      (⟨nanmean p.1, nanstd p.1⟩, ⟨nanmean p.2, nanstd p.2⟩) }

/-- Embedding of `get_residual_statistics` (source lines 514-526) for one
model: IMTs whose store entry is `None` are skipped (`continue`) and appear in
no output pair. -/
def get_residual_statistics (g : GmpeData) : List (String × PairStats) :=
  g.imts.filterMap fun imtx =>
    (g.store imtx).map fun e => (imtx, get_residual_statistics_for e)

/-- The error function `erf` of `scipy.special`. -/
def erf (x : ℝ) : ℝ :=
  (2 / Real.sqrt Real.pi) * ∫ t in (0 : ℝ)..x, Real.exp (-(t ^ 2))

/-- The likelihood transform of Scherbaum et al. (2004), Equation 9:
`LH = 1 - erf(|z| / √2)` element-wise (source line 685). -/
def lh_values (xs : List ℝ) : List ℝ :=
  xs.map fun z => 1 - erf (|z| / Real.sqrt 2)

/-- Embedding of `_get_likelihood_values_for` (source lines 669-688), the
per-type likelihood arrays (the NaN-aware median is not needed by any claim
and is omitted from the cell). -/
def _get_likelihood_values_for (e : StoreEntry) :
    List ℝ × Option (List ℝ × List ℝ) :=
  (lh_values e.total, e.interIntra.map fun p => (lh_values p.1, lh_values p.2))

/-- Embedding of the loop of `get_likelihood_values` (source lines 646-667)
for one model: IMTs with a `None` store entry are skipped. -/
def get_likelihood_values (g : GmpeData) :
    List (String × (List ℝ × Option (List ℝ × List ℝ))) :=
  g.imts.filterMap fun imtx =>
    (g.store imtx).map fun e => (imtx, _get_likelihood_values_for e)

/-- The standard normal density `norm.pdf(x, 0., 1.0)`. -/
def normPdf (x : ℝ) : ℝ := Real.exp (-(x ^ 2) / 2) / Real.sqrt (2 * Real.pi)

/-- `np.log2(norm.pdf(residuals, 0., 1.0))` element-wise (source lines
714-716). -/
def asll (xs : List ℝ) : List ℝ := xs.map fun x => Real.logb 2 (normPdf x)

/-- Per-IMT LLH entries of `get_loglikelihood_values` (source lines 701-720)
for one model: entries stay `none` (the initialised `None`) for IMTs skipped
because they are not in the model's IMT list or their store entry is `None`;
otherwise `-(1/len)·Σ asll`. -/
def llh_per_imt (g : GmpeData) (imts : List String) : List (String × Option ℝ) :=
  imts.map fun imtx =>
    if imtx ∈ g.imts then
      match g.store imtx with
      | none => (imtx, none)
      | some e =>
          (imtx, some (-(1 / ((asll e.total).length : ℝ)) * (asll e.total).sum))
    else (imtx, none)

/-- The concatenated `log_residuals` of one model over the requested IMTs
(source lines 701-719). -/
def log_residuals (g : GmpeData) (imts : List String) : List ℝ :=
  imts.flatMap fun imtx =>
    if imtx ∈ g.imts then
      match g.store imtx with
      | none => []
      | some e => asll e.total
    else []

/-- The aggregate `llh[gmpe]["All"]` value (source lines 722-723). -/
def llh_all (g : GmpeData) (imts : List String) : ℝ :=
  -(1 / ((log_residuals g imts).length : ℝ)) * (log_residuals g imts).sum

/-- The model weights of `get_loglikelihood_values` (source lines 724-730):
`2.0 ** -llh_all` per model, normalised by the sum over all models. -/
def model_weights (llhs : List ℝ) : List ℝ :=
  let ws := llhs.map fun L => (2 : ℝ) ^ (-L)
  ws.map fun w => w / ws.sum

/-- The weights returned by `get_loglikelihood_values` over a list of models. -/
def get_loglikelihood_weights (gs : List GmpeData) (imts : List String) :
    List ℝ :=
  model_weights (gs.map fun g => llh_all g imts)

/-- A packed context list for the multivariate LLH of one IMT. -/
structure MvPack where
  neqs : ℕ
  ev : Fin neqs → MvEvent

/-- Per-IMT values of `get_multivariate_loglikelihood_values` (source lines
749-759) for one model: pairs whose residual store entry is `None` get the
value `0.0`; the others get `get_multivariate_ll`. -/
def get_multivariate_llh_per_imt (g : GmpeData) (ctxs : String → MvPack) :
    List (String × ℝ) :=
  g.imts.map fun imtx =>
    match g.store imtx with
    | none => (imtx, 0)
    | some _ => (imtx, get_multivariate_ll (ctxs imtx).ev)

/-- The `sum_imts = True` branch (source lines 760-766): the per-IMT values
are summed (`np.isnan` never holds on ℝ, so the NaN skip never fires in the
embedding). -/
def get_multivariate_llh_sum (g : GmpeData) (ctxs : String → MvPack) : ℝ :=
  ((get_multivariate_llh_per_imt g ctxs).map Prod.snd).sum

/-- One context as read by `_get_edr_gmpe_information`: raw observations and
the expected (`"Mean"`, `"Total"`) arrays per IMT, `none` for an inapplicable
(model, IMT) pair. -/
structure EdrCtx where
  obsOf : String → List ℝ
  expectedOf : String → Option (List ℝ × List ℝ)

/-- Embedding of `_get_edr_gmpe_information` (source lines 864-879): the
source reads `context["Expected"][gmpe][imtx]["Mean"]` with no `None` guard,
so a `None` expected cell raises a `TypeError`; the raise is embedded as a
`none` result of the traversal. -/
def _get_edr_gmpe_information (imts : List String) (contexts : List EdrCtx) :
    Option (List ℝ × List ℝ × List ℝ) :=
  (imts.flatMap fun imtx => contexts.map fun c => (imtx, c)).foldlM
    (fun acc p =>
      match p.2.expectedOf p.1 with
      | none => none
      | some mt =>
          some (acc.1 ++ (p.2.obsOf p.1).map Real.log,
                acc.2.1 ++ mt.1, acc.2.2 ++ mt.2))
    ([], [], [])

/-! ## Single-station analysis (`SingleStationAnalysis`, source lines
1073-1138) -/

/-- Embedding of `SingleStationAnalysis._get_delta_s2ss` (source lines
1125-1130): Rodriguez-Marek et al. (2011) Equation 8. -/
def _get_delta_s2ss (intra_event : List ℝ) (n_events : ℕ) : ℝ :=
  (1 / (n_events : ℝ)) * intra_event.sum

/-- Embedding of `SingleStationAnalysis._get_single_station_phi` (source lines
1132-1138): Rodriguez-Marek et al. (2011) Equation 11 (the cast of
`n_events - 1` follows Python's signed arithmetic). -/
def _get_single_station_phi (intra_event : List ℝ) (delta_s2ss : ℝ)
    (n_events : ℕ) : ℝ :=
  Real.sqrt ((intra_event.map fun x => (x - delta_s2ss) ^ 2).sum /
    ((n_events : ℝ) - 1))

/-- The per-site analysis cell produced by `residual_statistics` for one
(model, IMT) pair (the copied residual/expected arrays of the source are
omitted: no claim mentions them). -/
structure SiteAnalysis where
  events : ℕ
  dS2ss : ℝ
  dWoes : List ℝ
  phi_ss_s : ℝ

/-- Embedding of the per-site, per-(model, IMT) body of
`SingleStationAnalysis.residual_statistics` (source lines 1086-1114):
`n_events` is the length of the site's `"Total"` residual array, `dS2ss` the
average within-event residual, `dWo,es = intra - dS2ss` element-wise, and
`phi_ss,s` the single-station phi. -/
def residual_statistics_site (total intra : List ℝ) : SiteAnalysis :=
  let n_events := total.length
  let delta_s2ss := _get_delta_s2ss intra n_events
  { events := n_events
    dS2ss := delta_s2ss
    dWoes := intra.map fun x => x - delta_s2ss
    phi_ss_s := _get_single_station_phi intra delta_s2ss n_events }

end

/-! ## Residual aggregation (`Residuals.get_residuals`, source lines 392-437)

The aggregation loop of `get_residuals` appends, for every context and every
declared residual type, the context's residual and expected arrays to the
growing per-(model, IMT) stores.  The loop performs only list appends, absolute
values and float comparisons, so it is embedded over `ℚ` (every float is a
rational), which keeps the collapse test `|x - x0| < 1e-12` decidable.  The
values fed to it in a run are the outputs of `calculate_residuals` and
`get_expected_motions` for one (model, IMT) pair. -/

/-- Residual cell of one (model, IMT) pair for one context, as read by the
aggregation loop. -/
structure RPair where
  total : List ℚ
  interIntra : Option (List ℚ × List ℚ)

/-- Per-context data read by the aggregation loop for a fixed (model, IMT)
pair: the residual cell (`none` when the pair is inapplicable and the context
is skipped, source line 394) and the expected arrays extended into the
`modelled` store (source lines 419-423). -/
structure CtxPairData where
  residual : Option RPair
  expTotal : List ℚ
  expInter : List ℚ
  expIntra : List ℚ
  expMean : List ℚ

/-- The per-(model, IMT) growing stores: residual arrays, modelled (expected)
arrays and the recorded unique inter-event indices. -/
structure AggState where
  resTotal : List ℚ
  resInter : List ℚ
  resIntra : List ℚ
  modTotal : List ℚ
  modInter : List ℚ
  modIntra : List ℚ
  modMean : List ℚ
  unique_indices : List (List ℕ)

/-- The collapse test of source lines 400-401:
`np.all(np.fabs(inter_ev - inter_ev[0]) < 1.0E-12)`. -/
def interCollapsed (ie : List ℚ) : Bool :=
  ie.all fun x => decide (|x - ie.headI| < 1 / 10 ^ 12)

/-- One iteration of the aggregation loop of `get_residuals` (source lines
392-423) for a fixed (model, IMT) pair: skip a `None` residual cell; append the
inter-event residual as a single scalar with unique index `[0]` when the vector
is constant within `1e-12`, or the whole vector with the full index range
otherwise; extend the other residual stores by the full arrays; extend every
modelled store by the corresponding expected array, plus the mean. -/
def aggStep (st : AggState) (c : CtxPairData) : AggState :=
  match c.residual with
  | none => st
  | some r =>
      let st1 :=
        match r.interIntra with
        | none => st
        | some ii =>
            let st2 :=
              if interCollapsed ii.1 then
                { st with
                    resInter := st.resInter ++ [ii.1.headI]
                    unique_indices := st.unique_indices ++ [[0]] }
              else
                { st with
                    resInter := st.resInter ++ ii.1
                    unique_indices :=
                      st.unique_indices ++ [List.range ii.1.length] }
            { st2 with
                resIntra := st2.resIntra ++ ii.2
                modInter := st2.modInter ++ c.expInter
                modIntra := st2.modIntra ++ c.expIntra }
      { st1 with
          resTotal := st1.resTotal ++ r.total
          modTotal := st1.modTotal ++ c.expTotal
          modMean := st1.modMean ++ c.expMean }

/-- The empty stores the loop starts from. -/
def emptyAgg : AggState := ⟨[], [], [], [], [], [], [], []⟩

/-- The aggregation loop over all contexts. -/
def get_residuals_agg (ctxs : List CtxPairData) : AggState :=
  ctxs.foldl aggStep emptyAgg

/-- Spec-side description of one context's contribution to the total residual
store. -/
def cResTotal (c : CtxPairData) : List ℚ :=
  match c.residual with
  | none => []
  | some r => r.total

/-- Spec-side description of one context's contribution to the inter-event
residual store: one scalar when the inter-event residual vector is constant
within `1e-12`, the whole per-record vector otherwise. -/
def cResInter (c : CtxPairData) : List ℚ :=
  match c.residual with
  | none => []
  | some r =>
      match r.interIntra with
      | none => []
      | some ii => if interCollapsed ii.1 then [ii.1.headI] else ii.1

/-- Spec-side description of one context's contribution to the intra-event
residual store. -/
def cResIntra (c : CtxPairData) : List ℚ :=
  match c.residual with
  | none => []
  | some r =>
      match r.interIntra with
      | none => []
      | some ii => ii.2

/-- Spec-side contribution to the modelled total store. -/
def cModTotal (c : CtxPairData) : List ℚ :=
  match c.residual with
  | none => []
  | some _ => c.expTotal

/-- Spec-side contribution to the modelled inter-event store: always the full
expected inter-event array, regardless of the collapse. -/
def cModInter (c : CtxPairData) : List ℚ :=
  match c.residual with
  | none => []
  | some r =>
      match r.interIntra with
      | none => []
      | some _ => c.expInter

/-- Spec-side contribution to the modelled intra-event store. -/
def cModIntra (c : CtxPairData) : List ℚ :=
  match c.residual with
  | none => []
  | some r =>
      match r.interIntra with
      | none => []
      | some _ => c.expIntra

/-- Spec-side contribution to the modelled mean store. -/
def cModMean (c : CtxPairData) : List ℚ :=
  match c.residual with
  | none => []
  | some _ => c.expMean

/-- Spec-side contribution to the recorded unique indices: a single unique
index `[0]` for a collapsed context, the full index range otherwise. -/
def cUnique (c : CtxPairData) : List (List ℕ) :=
  match c.residual with
  | none => []
  | some r =>
      match r.interIntra with
      | none => []
      | some ii =>
          if interCollapsed ii.1 then [[0]] else [List.range ii.1.length]

/-- Well-formed per-context data: the arrays of one context have the per-record
length of that context (what `get_expected_motions` and `calculate_residuals`
produce). -/
def CtxWF (c : CtxPairData) : Prop :=
  ∀ r ∈ c.residual,
    r.total.length = c.expTotal.length ∧
    c.expMean.length = c.expTotal.length ∧
    ∀ ii ∈ r.interIntra, ii.2.length = c.expIntra.length

/-! ## Distinctiveness (`Residuals.get_distinctiveness`, source lines 801-833)

The bootstrap output cube is `outputs[model, imt, bootstrap]`; the function
counts, for each pair of models, the draws where one outperforms (has strictly
smaller multivariate LLH than) the other.  The counting and division are exact
on `ℚ`. -/

/-- Embedding of `np.sum(data_i < data_j)`: the number of positions at which
the first array is strictly smaller. -/
def countLess {ι : Type} [Fintype ι] (x y : ι → ℚ) : ℕ :=
  (Finset.univ.filter fun p => x p < y p).card

/-- Embedding of `get_distinctiveness` with `sum_imts = True` (source lines
809-820): `(Σ(data_i < data_j) − Σ(data_j < data_i)) / (nbs · nimts)` over the
whole (imt × bootstrap) slab, zero on the diagonal (the `i == j` `continue`
leaves the initialised zero). -/
def get_distinctiveness_sum {ngmpes nimts nbs : ℕ}
    (outputs : Fin ngmpes → Fin nimts → Fin nbs → ℚ) :
    Fin ngmpes → Fin ngmpes → ℚ := fun i j =>
  if i = j then 0
  else ((countLess (fun p : Fin nimts × Fin nbs => outputs i p.1 p.2)
            (fun p => outputs j p.1 p.2) : ℚ) -
        (countLess (fun p : Fin nimts × Fin nbs => outputs j p.1 p.2)
            (fun p => outputs i p.1 p.2) : ℚ)) / ((nbs : ℚ) * (nimts : ℚ))

/-- Embedding of `get_distinctiveness` with `sum_imts = False` (source lines
821-833): per-IMT counting divided by `nbs` only. -/
def get_distinctiveness_per_imt {ngmpes nimts nbs : ℕ}
    (outputs : Fin ngmpes → Fin nimts → Fin nbs → ℚ) :
    Fin ngmpes → Fin ngmpes → Fin nimts → ℚ := fun i j k =>
  if i = j then 0
  else ((countLess (outputs i k) (outputs j k) : ℚ) -
        (countLess (outputs j k) (outputs i k) : ℚ)) / (nbs : ℚ)

/-! ## Theorems -/

section Theorems

open Real Matrix

/-- C1: for every record of an applicable (model, IMT) cell (the expected cell
is not `none`), the `"Total"` residual computed by `calculate_residuals` equals
`(log obs - mean) / total_stddev` element-wise, and the observation round-trips:
`obs = exp(mean + total_residual * total_stddev)` (exactly, over ℝ). -/
theorem c1_total_residual {n : ℕ} (observations : Fin n → ℝ) (e : Expected n)
    (normalise : Bool) (i : Fin n)
    (hobs : 0 < observations i) (hsd : e.total i ≠ 0) :
    ∃ r : ResidualEntry n,
      calculate_residuals observations (some e) normalise = some r ∧
      r.total i = (Real.log (observations i) - e.mean i) / e.total i ∧
      Real.exp (e.mean i + r.total i * e.total i) = observations i := by
  refine ⟨_, rfl, rfl, ?_⟩
  show Real.exp (e.mean i +
    (Real.log (observations i) - e.mean i) / e.total i * e.total i) = _
  rw [div_mul_cancel₀ _ hsd]
  have h : e.mean i + (Real.log (observations i) - e.mean i) =
      Real.log (observations i) := by ring
  rw [h]
  exact Real.exp_log hobs

/-- Witness for C1: a one-record context with observation `e`, mean `0`,
total standard deviation `1`. -/
theorem c1_total_residual_witness :
    0 < (fun _ : Fin 1 => Real.exp 1) 0 ∧ ((1 : ℝ) ≠ 0) ∧
    ∃ r : ResidualEntry 1,
      calculate_residuals (fun _ : Fin 1 => Real.exp 1)
        (some ⟨fun _ => 0, fun _ => 1, none⟩) false = some r ∧
      r.total 0 = (Real.log (Real.exp 1) - 0) / 1 ∧
      Real.exp (0 + r.total 0 * 1) = Real.exp 1 :=
  ⟨Real.exp_pos 1, one_ne_zero,
    c1_total_residual (fun _ : Fin 1 => Real.exp 1)
      ⟨fun _ => 0, fun _ => 1, none⟩ false 0 (Real.exp_pos 1) one_ne_zero⟩

/-- C2 counterexample: with log-observations `[2, 0]`, means `[0, 0]`, a
constant between-event standard deviation `τ = 1` and per-record within-event
standard deviations `φ = [1, 3]`, the inter-event residual returned by
`_get_random_effects_residuals` (normalisation disabled) has entries `2/3` and
`2/11` — a per-record vector with two different values, not a single scalar per
event/context as the claim states. -/
theorem c2_counterexample :
    ((_get_random_effects_residuals ![2, 0] ![0, 0] ![1, 1] ![1, 3] false).1 0
      = 2 / 3) ∧
    ((_get_random_effects_residuals ![2, 0] ![0, 0] ![1, 1] ![1, 3] false).1 1
      = 2 / 11) ∧
    (_get_random_effects_residuals ![2, 0] ![0, 0] ![1, 1] ![1, 3] false).1 0 ≠
      (_get_random_effects_residuals ![2, 0] ![0, 0] ![1, 1] ![1, 3] false).1 1 := by
  norm_num [_get_random_effects_residuals, Fin.sum_univ_two]

/-- C2 amended: `_get_random_effects_residuals` (normalise disabled) returns a
per-record inter-event residual vector whose `i`-th entry is
`τ_i² · Σ_j (y_j − m_j) / (n·τ_i² + φ_i²)` (the per-record `τ_i` and `φ_i` both
appear), together with `intra_i = y_i − (m_i + inter_i)`; with normalise
enabled the entries are divided element-wise by `τ_i` and `φ_i` respectively;
in particular, whenever `τ` and `φ` are constant across the event's records
the vector is constant — a single `η` per event. -/
theorem c2_amended {n : ℕ} (obs mean inter intra : Fin n → ℝ) (i : Fin n) :
    ((_get_random_effects_residuals obs mean inter intra false).1 i =
      (inter i ^ 2 * ∑ j, (obs j - mean j)) /
        ((n : ℝ) * inter i ^ 2 + intra i ^ 2)) ∧
    ((_get_random_effects_residuals obs mean inter intra false).2 i =
      obs i - (mean i +
        (_get_random_effects_residuals obs mean inter intra false).1 i)) ∧
    ((_get_random_effects_residuals obs mean inter intra true).1 i =
      (_get_random_effects_residuals obs mean inter intra false).1 i / inter i) ∧
    ((_get_random_effects_residuals obs mean inter intra true).2 i =
      (_get_random_effects_residuals obs mean inter intra false).2 i / intra i) ∧
    ((∀ j k, inter j = inter k) → (∀ j k, intra j = intra k) →
      ∀ j, (_get_random_effects_residuals obs mean inter intra false).1 j =
        (_get_random_effects_residuals obs mean inter intra false).1 i) := by
  refine ⟨rfl, rfl, rfl, rfl, fun hτ hφ j => ?_⟩
  show (inter j ^ 2 * ∑ k, (obs k - mean k)) /
      ((n : ℝ) * inter j ^ 2 + intra j ^ 2) =
    (inter i ^ 2 * ∑ k, (obs k - mean k)) /
      ((n : ℝ) * inter i ^ 2 + intra i ^ 2)
  rw [hτ j i, hφ j i]

/-- Witness for C2 amended at constant `τ` and `φ`: the inner constancy
hypotheses are discharged at a concrete two-record input. -/
theorem c2_amended_witness :
    (_get_random_effects_residuals ![(1 : ℝ), 2] ![0, 0]
      (fun _ => 1) (fun _ => 1) false).1 1 =
    (_get_random_effects_residuals ![(1 : ℝ), 2] ![0, 0]
      (fun _ => 1) (fun _ => 1) false).1 0 :=
  (c2_amended ![(1 : ℝ), 2] ![0, 0] (fun _ => 1) (fun _ => 1) 0).2.2.2.2
    (fun _ _ => rfl) (fun _ _ => rfl) 1

/-- C3: with normalisation disabled, when the inter-event residual vector is
constant across the event's records (the single per-event `η` broadcast), the
random-effects decomposition round-trips exactly: for every record `i`,
`mean_i + η + intra_i = obs_i` (with `obs` the log-observations and `η` the
shared inter-event value, read at any record `i0`). -/
theorem c3_decomposition_roundtrip {n : ℕ} (obs mean inter intra : Fin n → ℝ)
    (hconst : ∀ j k,
      (_get_random_effects_residuals obs mean inter intra false).1 j =
      (_get_random_effects_residuals obs mean inter intra false).1 k)
    (i i0 : Fin n) :
    mean i + (_get_random_effects_residuals obs mean inter intra false).1 i0 +
      (_get_random_effects_residuals obs mean inter intra false).2 i = obs i := by
  have h2 : (_get_random_effects_residuals obs mean inter intra false).2 i =
      obs i - (mean i +
        (_get_random_effects_residuals obs mean inter intra false).1 i) := rfl
  rw [h2, hconst i0 i]; ring

/-- Witness for C3 at a concrete two-record event with constant `τ` and `φ`. -/
theorem c3_decomposition_roundtrip_witness :
    (![(0 : ℝ), 0] : Fin 2 → ℝ) 0 +
      (_get_random_effects_residuals ![(1 : ℝ), 2] ![0, 0]
        (fun _ => 1) (fun _ => 1) false).1 1 +
      (_get_random_effects_residuals ![(1 : ℝ), 2] ![0, 0]
        (fun _ => 1) (fun _ => 1) false).2 0 = (![(1 : ℝ), 2] : Fin 2 → ℝ) 0 :=
  c3_decomposition_roundtrip ![(1 : ℝ), 2] ![0, 0] (fun _ => 1) (fun _ => 1)
    (fun _ _ => rfl) 0 1

/-- C4: for a fixed model and IMT, `get_multivariate_ll` equals
`(n·ln(2π) + ln|V| + rᵀ·V⁻¹·r) / 2` where `n` is the total record count over
all contexts, `r` the vector of log-observations minus expected means, and
`V = diag(φ²) + Z·Zᵀ` with `Z`'s column for event `j` holding that event's
inter-event standard deviation at the rows of event `j`'s records and zero
elsewhere; events without a decomposition use the total standard deviation as
the intra term and contribute zero inter-event standard deviation. -/
theorem c4_multivariate_ll {neqs : ℕ} (ev : Fin neqs → MvEvent)
    (hs : ∀ j, SimpleDecomp (ev j)) :
    get_multivariate_ll ev =
      ((nrecs ev : ℝ) * Real.log (2 * Real.pi) +
        Real.log |(V_spec ev (fun j => eventSigma (ev j))).det| +
        Matrix.dotProduct (fun p => mv_observations ev p - expected_mat ev p)
          ((V_spec ev (fun j => eventSigma (ev j)))⁻¹ *ᵥ
            (fun p => mv_observations ev p - expected_mat ev p))) / 2 := by
  have hz : z_g_mat ev = Z_spec ev (fun j => eventSigma (ev j)) := by
    funext p c
    simp only [z_g_mat, Z_spec]
    by_cases h : c = p.1
    · rw [if_pos h, if_pos h]
      rcases hd : (ev p.1).decomp with _ | d
      · simp [eventSigma, hd]
      · obtain ⟨v, hv⟩ := hs p.1 d (Option.mem_def.mpr hd)
        simp [eventSigma, hd, hv, InterArr.valAt]
    · rw [if_neg h, if_neg h]
  have hphi : r_mat ev = phi_spec ev := rfl
  have hv : v_mat ev = V_spec ev (fun j => eventSigma (ev j)) := by
    unfold v_mat V_spec
    rw [hz, hphi]
  unfold get_multivariate_ll
  rw [hv]

/-- Witness for C4 at a single one-record context with no decomposition. -/
theorem c4_multivariate_ll_witness :
    (∀ j : Fin 1, SimpleDecomp ((fun _ : Fin 1 =>
      (⟨1, fun _ => 1, fun _ => 0, fun _ => 1, none⟩ : MvEvent)) j)) ∧
    get_multivariate_ll (fun _ : Fin 1 =>
      (⟨1, fun _ => 1, fun _ => 0, fun _ => 1, none⟩ : MvEvent)) =
      ((nrecs (fun _ : Fin 1 =>
          (⟨1, fun _ => 1, fun _ => 0, fun _ => 1, none⟩ : MvEvent)) : ℝ) *
          Real.log (2 * Real.pi) +
        Real.log |(V_spec (fun _ : Fin 1 =>
          (⟨1, fun _ => 1, fun _ => 0, fun _ => 1, none⟩ : MvEvent))
          (fun j => eventSigma ((fun _ : Fin 1 =>
            (⟨1, fun _ => 1, fun _ => 0, fun _ => 1, none⟩ : MvEvent)) j))).det| +
        Matrix.dotProduct
          (fun p => mv_observations (fun _ : Fin 1 =>
            (⟨1, fun _ => 1, fun _ => 0, fun _ => 1, none⟩ : MvEvent)) p -
            expected_mat (fun _ : Fin 1 =>
              (⟨1, fun _ => 1, fun _ => 0, fun _ => 1, none⟩ : MvEvent)) p)
          ((V_spec (fun _ : Fin 1 =>
            (⟨1, fun _ => 1, fun _ => 0, fun _ => 1, none⟩ : MvEvent))
            (fun j => eventSigma ((fun _ : Fin 1 =>
              (⟨1, fun _ => 1, fun _ => 0, fun _ => 1, none⟩ : MvEvent)) j)))⁻¹ *ᵥ
            (fun p => mv_observations (fun _ : Fin 1 =>
              (⟨1, fun _ => 1, fun _ => 0, fun _ => 1, none⟩ : MvEvent)) p -
              expected_mat (fun _ : Fin 1 =>
                (⟨1, fun _ => 1, fun _ => 0, fun _ => 1, none⟩ : MvEvent)) p))) / 2 :=
  have hs : ∀ j : Fin 1, SimpleDecomp ((fun _ : Fin 1 =>
      (⟨1, fun _ => 1, fun _ => 0, fun _ => 1, none⟩ : MvEvent)) j) :=
    fun _ d hd => absurd hd (Option.not_mem_none d)
  ⟨hs, c4_multivariate_ll _ hs⟩

/-- One aggregation step appends exactly the per-context contributions to each
store. -/
theorem aggStep_eq (st : AggState) (c : CtxPairData) :
    aggStep st c =
      { resTotal := st.resTotal ++ cResTotal c
        resInter := st.resInter ++ cResInter c
        resIntra := st.resIntra ++ cResIntra c
        modTotal := st.modTotal ++ cModTotal c
        modInter := st.modInter ++ cModInter c
        modIntra := st.modIntra ++ cModIntra c
        modMean := st.modMean ++ cModMean c
        unique_indices := st.unique_indices ++ cUnique c } := by
  rcases st with ⟨a1, a2, a3, a4, a5, a6, a7, a8⟩
  rcases c with ⟨res, eT, eI, eIn, eM⟩
  rcases res with _ | ⟨tot, ii⟩
  · simp [aggStep, cResTotal, cResInter, cResIntra, cModTotal, cModInter,
      cModIntra, cModMean, cUnique]
  · rcases ii with _ | ⟨ie, ia⟩
    · simp [aggStep, cResTotal, cResInter, cResIntra, cModTotal, cModInter,
        cModIntra, cModMean, cUnique]
    · by_cases h : interCollapsed ie
      · simp [aggStep, cResTotal, cResInter, cResIntra, cModTotal, cModInter,
          cModIntra, cModMean, cUnique, h]
      · simp [aggStep, cResTotal, cResInter, cResIntra, cModTotal, cModInter,
          cModIntra, cModMean, cUnique, h]

/-- Closed form of the aggregation loop: every store is the concatenation of
the per-context contributions. -/
theorem foldl_aggStep_closed (ctxs : List CtxPairData) (st : AggState) :
    List.foldl aggStep st ctxs =
      { resTotal := st.resTotal ++ ctxs.flatMap cResTotal
        resInter := st.resInter ++ ctxs.flatMap cResInter
        resIntra := st.resIntra ++ ctxs.flatMap cResIntra
        modTotal := st.modTotal ++ ctxs.flatMap cModTotal
        modInter := st.modInter ++ ctxs.flatMap cModInter
        modIntra := st.modIntra ++ ctxs.flatMap cModIntra
        modMean := st.modMean ++ ctxs.flatMap cModMean
        unique_indices := st.unique_indices ++ ctxs.flatMap cUnique } := by
  induction ctxs generalizing st with
  | nil => cases st; simp
  | cons c cs ih =>
      rw [List.foldl_cons, aggStep_eq, ih]
      simp [List.flatMap_cons, List.append_assoc]

/-- Lengths of concatenated per-element contributions agree when they agree
element-wise. -/
theorem flatMap_length_congr {α β γ : Type} (l : List α) (f : α → List β)
    (g : α → List γ) (h : ∀ c ∈ l, (f c).length = (g c).length) :
    (l.flatMap f).length = (l.flatMap g).length := by
  induction l with
  | nil => rfl
  | cons c cs ih =>
      simp only [List.flatMap_cons, List.length_append]
      rw [h c (by simp), ih (fun x hx => h x (by simp [hx]))]

/-- Well-formed contexts contribute equally many modelled-total and
residual-total values. -/
theorem cModTotal_length (c : CtxPairData) (h : CtxWF c) :
    (cModTotal c).length = (cResTotal c).length := by
  rcases hc : c.residual with _ | r
  · simp [cModTotal, cResTotal, hc]
  · obtain ⟨h1, _, _⟩ := h r (Option.mem_def.mpr hc)
    simp [cModTotal, cResTotal, hc, h1]

/-- Well-formed contexts contribute equally many modelled-mean and
residual-total values. -/
theorem cModMean_length (c : CtxPairData) (h : CtxWF c) :
    (cModMean c).length = (cResTotal c).length := by
  rcases hc : c.residual with _ | r
  · simp [cModMean, cResTotal, hc]
  · obtain ⟨h1, h2, _⟩ := h r (Option.mem_def.mpr hc)
    simp only [cModMean, cResTotal, hc]
    omega

/-- Well-formed contexts contribute equally many modelled-intra and
residual-intra values. -/
theorem cModIntra_length (c : CtxPairData) (h : CtxWF c) :
    (cModIntra c).length = (cResIntra c).length := by
  rcases hc : c.residual with _ | r
  · simp [cModIntra, cResIntra, hc]
  · obtain ⟨_, _, h3⟩ := h r (Option.mem_def.mpr hc)
    rcases hii : r.interIntra with _ | ii
    · simp [cModIntra, cResIntra, hc, hii]
    · have := h3 ii (Option.mem_def.mpr hii)
      simp [cModIntra, cResIntra, hc, hii, this]

/-- C5 counterexample: one context with two records whose inter-event residual
vector `[5, 5]` is constant within `1e-12`.  The residual store's
`"Inter event"` array receives one element while the paired modelled array at
the same key path receives the full two-element expected array, so the two
arrays at the same key path do not have identical length, contradicting the
claim's invariant. -/
theorem c5_counterexample :
    (get_residuals_agg
      [⟨some ⟨[1, 2], some ([5, 5], [3, 4])⟩,
        [1, 1], [1, 1], [1, 1], [1, 1]⟩]).resInter.length = 1 ∧
    (get_residuals_agg
      [⟨some ⟨[1, 2], some ([5, 5], [3, 4])⟩,
        [1, 1], [1, 1], [1, 1], [1, 1]⟩]).modInter.length = 2 ∧
    (get_residuals_agg
      [⟨some ⟨[1, 2], some ([5, 5], [3, 4])⟩,
        [1, 1], [1, 1], [1, 1], [1, 1]⟩]).resInter.length ≠
    (get_residuals_agg
      [⟨some ⟨[1, 2], some ([5, 5], [3, 4])⟩,
        [1, 1], [1, 1], [1, 1], [1, 1]⟩]).modInter.length := by
  have hcol : interCollapsed [5, 5] = true := by
    simp only [interCollapsed, List.headI, List.all_cons, List.all_nil,
      Bool.and_eq_true, decide_eq_true_eq]
    norm_num
  have h := aggStep_eq emptyAgg
    ⟨some ⟨[1, 2], some ([5, 5], [3, 4])⟩, [1, 1], [1, 1], [1, 1], [1, 1]⟩
  have hagg : get_residuals_agg
      [⟨some ⟨[1, 2], some ([5, 5], [3, 4])⟩, [1, 1], [1, 1], [1, 1], [1, 1]⟩] =
      aggStep emptyAgg
        ⟨some ⟨[1, 2], some ([5, 5], [3, 4])⟩, [1, 1], [1, 1], [1, 1], [1, 1]⟩ :=
    rfl
  refine ⟨?_, ?_, ?_⟩ <;> rw [hagg, h] <;>
    simp [cResInter, cModInter, emptyAgg, hcol]

/-- C5 amended: after the aggregation loop completes, for a fixed (model, IMT)
pair, the `"Total"` and `"Intra event"` residual arrays and the modelled
`"Mean"` array have the same length as their paired modelled arrays; a context
whose inter-event residual vector is constant within absolute tolerance `1e-12`
contributes exactly one inter-event residual element (with a single recorded
unique index `[0]`) and otherwise one element per record (with the full index
range recorded) — but the modelled `"Inter event"` array always receives the
full expected array, so its length may differ from the inter-event residual
array's. -/
theorem c5_amended (ctxs : List CtxPairData) (hwf : ∀ c ∈ ctxs, CtxWF c) :
    (get_residuals_agg ctxs).modTotal.length =
      (get_residuals_agg ctxs).resTotal.length ∧
    (get_residuals_agg ctxs).modMean.length =
      (get_residuals_agg ctxs).resTotal.length ∧
    (get_residuals_agg ctxs).modIntra.length =
      (get_residuals_agg ctxs).resIntra.length ∧
    (get_residuals_agg ctxs).resInter = ctxs.flatMap cResInter ∧
    (get_residuals_agg ctxs).modInter = ctxs.flatMap cModInter ∧
    (get_residuals_agg ctxs).unique_indices = ctxs.flatMap cUnique := by
  unfold get_residuals_agg
  rw [foldl_aggStep_closed]
  exact ⟨flatMap_length_congr ctxs _ _ (fun c hc => cModTotal_length c (hwf c hc)),
    flatMap_length_congr ctxs _ _ (fun c hc => cModMean_length c (hwf c hc)),
    flatMap_length_congr ctxs _ _ (fun c hc => cModIntra_length c (hwf c hc)),
    rfl, rfl, rfl⟩

/-- Witness for C5 amended at one concrete well-formed context. -/
theorem c5_amended_witness :
    (∀ c ∈ [(⟨some ⟨[1, 2], some ([5, 6], [3, 4])⟩,
        [1, 2], [7], [8, 9], [1, 2]⟩ : CtxPairData)], CtxWF c) ∧
    (get_residuals_agg [⟨some ⟨[1, 2], some ([5, 6], [3, 4])⟩,
        [1, 2], [7], [8, 9], [1, 2]⟩]).modTotal.length =
      (get_residuals_agg [⟨some ⟨[1, 2], some ([5, 6], [3, 4])⟩,
        [1, 2], [7], [8, 9], [1, 2]⟩]).resTotal.length ∧
    (get_residuals_agg [⟨some ⟨[1, 2], some ([5, 6], [3, 4])⟩,
        [1, 2], [7], [8, 9], [1, 2]⟩]).modMean.length =
      (get_residuals_agg [⟨some ⟨[1, 2], some ([5, 6], [3, 4])⟩,
        [1, 2], [7], [8, 9], [1, 2]⟩]).resTotal.length ∧
    (get_residuals_agg [⟨some ⟨[1, 2], some ([5, 6], [3, 4])⟩,
        [1, 2], [7], [8, 9], [1, 2]⟩]).modIntra.length =
      (get_residuals_agg [⟨some ⟨[1, 2], some ([5, 6], [3, 4])⟩,
        [1, 2], [7], [8, 9], [1, 2]⟩]).resIntra.length ∧
    (get_residuals_agg [⟨some ⟨[1, 2], some ([5, 6], [3, 4])⟩,
        [1, 2], [7], [8, 9], [1, 2]⟩]).resInter =
      [(⟨some ⟨[1, 2], some ([5, 6], [3, 4])⟩,
        [1, 2], [7], [8, 9], [1, 2]⟩ : CtxPairData)].flatMap cResInter ∧
    (get_residuals_agg [⟨some ⟨[1, 2], some ([5, 6], [3, 4])⟩,
        [1, 2], [7], [8, 9], [1, 2]⟩]).modInter =
      [(⟨some ⟨[1, 2], some ([5, 6], [3, 4])⟩,
        [1, 2], [7], [8, 9], [1, 2]⟩ : CtxPairData)].flatMap cModInter ∧
    (get_residuals_agg [⟨some ⟨[1, 2], some ([5, 6], [3, 4])⟩,
        [1, 2], [7], [8, 9], [1, 2]⟩]).unique_indices =
      [(⟨some ⟨[1, 2], some ([5, 6], [3, 4])⟩,
        [1, 2], [7], [8, 9], [1, 2]⟩ : CtxPairData)].flatMap cUnique := by
  have hwf : ∀ c ∈ [(⟨some ⟨[1, 2], some ([5, 6], [3, 4])⟩,
      [1, 2], [7], [8, 9], [1, 2]⟩ : CtxPairData)], CtxWF c := by
    intro c hcm
    simp only [List.mem_singleton] at hcm
    subst hcm
    intro r hr
    simp only [Option.mem_def, Option.some.injEq] at hr
    subst hr
    refine ⟨rfl, rfl, ?_⟩
    intro ii hii
    simp only [Option.mem_def, Option.some.injEq] at hii
    subst hii
    rfl
  exact ⟨hwf, c5_amended _ hwf⟩

/-- The strict-inequality count never exceeds the number of positions. -/
theorem countLess_le {ι : Type} [Fintype ι] (x y : ι → ℚ) :
    countLess x y ≤ Fintype.card ι :=
  le_trans (Finset.card_filter_le _ _) (le_of_eq Finset.card_univ)

/-- A difference of two counts bounded by `N`, divided by `N`, lies in
`[-1, 1]`. -/
theorem diff_div_bounds (a b N : ℕ) (hN : 0 < N) (ha : a ≤ N) (hb : b ≤ N) :
    -1 ≤ ((a : ℚ) - b) / N ∧ ((a : ℚ) - b) / N ≤ 1 := by
  have hN' : (0 : ℚ) < N := by exact_mod_cast hN
  constructor
  · rw [le_div_iff₀ hN']
    have hbN : (b : ℚ) ≤ N := by exact_mod_cast hb
    have ha0 : (0 : ℚ) ≤ a := Nat.cast_nonneg a
    linarith
  · rw [div_le_one hN']
    have haN : (a : ℚ) ≤ N := by exact_mod_cast ha
    have hb0 : (0 : ℚ) ≤ b := Nat.cast_nonneg b
    linarith

/-- C8: every distinctiveness value returned by `get_distinctiveness` (in both
the summed-across-IMTs and the per-IMT mode) lies in `[-1, 1]`, and for every
pair of models `i`, `j` the value is antisymmetric:
`distinctiveness(i, j) = -distinctiveness(j, i)`. -/
theorem c8_distinctiveness {ngmpes nimts nbs : ℕ}
    (outputs : Fin ngmpes → Fin nimts → Fin nbs → ℚ)
    (hb : 0 < nbs) (hi : 0 < nimts) :
    (∀ i j, -1 ≤ get_distinctiveness_sum outputs i j ∧
      get_distinctiveness_sum outputs i j ≤ 1 ∧
      get_distinctiveness_sum outputs i j =
        -(get_distinctiveness_sum outputs j i)) ∧
    (∀ i j k, -1 ≤ get_distinctiveness_per_imt outputs i j k ∧
      get_distinctiveness_per_imt outputs i j k ≤ 1 ∧
      get_distinctiveness_per_imt outputs i j k =
        -(get_distinctiveness_per_imt outputs j i k)) := by
  have hcast : ((nbs : ℚ) * (nimts : ℚ)) = ((nbs * nimts : ℕ) : ℚ) := by
    push_cast; ring
  constructor
  · intro i j
    by_cases hij : i = j
    · subst hij
      simp [get_distinctiveness_sum]
    · have hji : j ≠ i := fun h => hij h.symm
      have hcard : ∀ x y : Fin nimts × Fin nbs → ℚ,
          countLess x y ≤ nbs * nimts := by
        intro x y
        have h := countLess_le x y
        simpa [Fintype.card_prod, Fintype.card_fin, Nat.mul_comm] using h
      have hbounds := diff_div_bounds
        (countLess (fun p : Fin nimts × Fin nbs => outputs i p.1 p.2)
          (fun p => outputs j p.1 p.2))
        (countLess (fun p : Fin nimts × Fin nbs => outputs j p.1 p.2)
          (fun p => outputs i p.1 p.2))
        (nbs * nimts) (Nat.mul_pos hb hi) (hcard _ _) (hcard _ _)
      rw [Nat.cast_mul] at hbounds
      refine ⟨?_, ?_, ?_⟩
      · simpa [get_distinctiveness_sum, hij] using hbounds.1
      · simpa [get_distinctiveness_sum, hij] using hbounds.2
      · simp only [get_distinctiveness_sum, if_neg hij, if_neg hji]
        ring
  · intro i j k
    by_cases hij : i = j
    · subst hij
      simp [get_distinctiveness_per_imt]
    · have hji : j ≠ i := fun h => hij h.symm
      have hcard : ∀ x y : Fin nbs → ℚ, countLess x y ≤ nbs := by
        intro x y
        have h := countLess_le x y
        simpa [Fintype.card_fin] using h
      have hbounds := diff_div_bounds
        (countLess (outputs i k) (outputs j k))
        (countLess (outputs j k) (outputs i k))
        nbs hb (hcard _ _) (hcard _ _)
      refine ⟨?_, ?_, ?_⟩
      · simpa [get_distinctiveness_per_imt, hij] using hbounds.1
      · simpa [get_distinctiveness_per_imt, hij] using hbounds.2
      · simp only [get_distinctiveness_per_imt, if_neg hij, if_neg hji]
        ring

/-- Witness for C8 at a one-model, one-IMT, one-bootstrap output cube. -/
theorem c8_distinctiveness_witness :
    (0 < 1) ∧
    ((∀ i j : Fin 1,
      -1 ≤ get_distinctiveness_sum (fun _ _ _ : Fin 1 => (0 : ℚ)) i j ∧
      get_distinctiveness_sum (fun _ _ _ : Fin 1 => (0 : ℚ)) i j ≤ 1 ∧
      get_distinctiveness_sum (fun _ _ _ : Fin 1 => (0 : ℚ)) i j =
        -(get_distinctiveness_sum (fun _ _ _ : Fin 1 => (0 : ℚ)) j i)) ∧
    (∀ i j k : Fin 1,
      -1 ≤ get_distinctiveness_per_imt (fun _ _ _ : Fin 1 => (0 : ℚ)) i j k ∧
      get_distinctiveness_per_imt (fun _ _ _ : Fin 1 => (0 : ℚ)) i j k ≤ 1 ∧
      get_distinctiveness_per_imt (fun _ _ _ : Fin 1 => (0 : ℚ)) i j k =
        -(get_distinctiveness_per_imt (fun _ _ _ : Fin 1 => (0 : ℚ)) j i k))) :=
  ⟨Nat.one_pos,
    c8_distinctiveness (fun _ _ _ : Fin 1 => (0 : ℚ)) Nat.one_pos Nat.one_pos⟩

/-- C9: for each analysed site and decomposable (model, IMT) pair, the
single-station analysis sets `dS2Ss` to the arithmetic mean of the site's
intra-event residuals, `dWo,es` to `intra - dS2Ss` element-wise, and
`phi_ss,s` to `sqrt(Σ(intra - dS2Ss)² / (n_site - 1))` with `n_site` the
number of records at the site. -/
theorem c9_single_station (total intra : List ℝ)
    (hlen : intra.length = total.length) :
    (residual_statistics_site total intra).dS2ss =
      intra.sum / (intra.length : ℝ) ∧
    (residual_statistics_site total intra).dWoes =
      intra.map (fun x => x - (residual_statistics_site total intra).dS2ss) ∧
    (residual_statistics_site total intra).phi_ss_s =
      Real.sqrt ((intra.map fun x =>
          (x - (residual_statistics_site total intra).dS2ss) ^ 2).sum /
        ((intra.length : ℝ) - 1)) := by
  refine ⟨?_, rfl, ?_⟩
  · show (1 / (total.length : ℝ)) * intra.sum = _
    rw [← hlen, one_div_mul_eq_div]
  · show Real.sqrt ((intra.map fun x =>
        (x - (residual_statistics_site total intra).dS2ss) ^ 2).sum /
        ((total.length : ℝ) - 1)) = _
    rw [← hlen]

/-- Witness for C9 at a concrete two-record site. -/
theorem c9_single_station_witness :
    ([(3 : ℝ), 4] : List ℝ).length = ([(1 : ℝ), 2] : List ℝ).length ∧
    ((residual_statistics_site [1, 2] [3, 4]).dS2ss =
      ([(3 : ℝ), 4] : List ℝ).sum / (([(3 : ℝ), 4] : List ℝ).length : ℝ) ∧
    (residual_statistics_site [1, 2] [3, 4]).dWoes =
      ([(3 : ℝ), 4] : List ℝ).map
        (fun x => x - (residual_statistics_site [1, 2] [3, 4]).dS2ss) ∧
    (residual_statistics_site [1, 2] [3, 4]).phi_ss_s =
      Real.sqrt ((([(3 : ℝ), 4] : List ℝ).map fun x =>
          (x - (residual_statistics_site [1, 2] [3, 4]).dS2ss) ^ 2).sum /
        ((([(3 : ℝ), 4] : List ℝ).length : ℝ) - 1))) :=
  ⟨rfl, c9_single_station [1, 2] [3, 4] rfl⟩

/-- The summed multivariate LLH only collects the applicable pairs: `None`
pairs contribute their `0.0` and drop out of the sum. -/
theorem mv_sum_aux (g : GmpeData) (ctxs : String → MvPack) (l : List String) :
    (l.map fun imtx =>
        Prod.snd (match g.store imtx with
          | none => (imtx, (0 : ℝ))
          | some _ => (imtx, get_multivariate_ll (ctxs imtx).ev))).sum =
      ((l.filter fun im => (g.store im).isSome).map
        fun im => get_multivariate_ll (ctxs im).ev).sum := by
  induction l with
  | nil => rfl
  | cons x xs ih =>
      rcases hx : g.store x with _ | e
      · simp [List.filter_cons, hx, ih]
      · simp [List.filter_cons, hx, ih]

/-- C10: a (model, IMT) pair whose residual store entry is `None` appears in
the output of `get_multivariate_loglikelihood_values` with the exact value
`0.0` (not omitted: the per-IMT key list is the full IMT list), and the
summed value collects only the applicable pairs, so the `None` pair
contributes exactly `0`. -/
theorem c10_multivariate_none (g : GmpeData) (ctxs : String → MvPack)
    (imtx : String) (hmem : imtx ∈ g.imts) (hnone : g.store imtx = none) :
    ((imtx, (0 : ℝ)) ∈ get_multivariate_llh_per_imt g ctxs) ∧
    ((get_multivariate_llh_per_imt g ctxs).map Prod.fst = g.imts) ∧
    (get_multivariate_llh_sum g ctxs =
      ((g.imts.filter fun im => (g.store im).isSome).map
        fun im => get_multivariate_ll (ctxs im).ev).sum) := by
  refine ⟨?_, ?_, ?_⟩
  · unfold get_multivariate_llh_per_imt
    refine List.mem_map.mpr ⟨imtx, hmem, ?_⟩
    rw [hnone]
  · unfold get_multivariate_llh_per_imt
    rw [List.map_map]
    have hfst : ∀ x : String,
        Prod.fst (match g.store x with
          | none => (x, (0 : ℝ))
          | some _ => (x, get_multivariate_ll (ctxs x).ev)) = x := by
      intro x
      rcases g.store x with _ | e <;> rfl
    have hcomp : (Prod.fst ∘ fun im =>
        match g.store im with
        | none => (im, (0 : ℝ))
        | some _ => (im, get_multivariate_ll (ctxs im).ev)) = id :=
      funext fun x => hfst x
    rw [hcomp, List.map_id]
  · unfold get_multivariate_llh_sum get_multivariate_llh_per_imt
    rw [List.map_map]
    exact mv_sum_aux g ctxs g.imts

/-- Witness for C10: one model with a single inapplicable IMT. -/
theorem c10_multivariate_none_witness :
    ("PGA" ∈ (⟨["PGA"], fun _ => none⟩ : GmpeData).imts) ∧
    (⟨["PGA"], fun _ => none⟩ : GmpeData).store "PGA" = none ∧
    (("PGA", (0 : ℝ)) ∈ get_multivariate_llh_per_imt
      ⟨["PGA"], fun _ => none⟩ (fun _ => ⟨0, fun j => j.elim0⟩)) ∧
    ((get_multivariate_llh_per_imt ⟨["PGA"], fun _ => none⟩
        (fun _ => ⟨0, fun j => j.elim0⟩)).map Prod.fst =
      (⟨["PGA"], fun _ => none⟩ : GmpeData).imts) ∧
    (get_multivariate_llh_sum ⟨["PGA"], fun _ => none⟩
        (fun _ => ⟨0, fun j => j.elim0⟩) =
      (((⟨["PGA"], fun _ => none⟩ : GmpeData).imts.filter
          fun im => ((⟨["PGA"], fun _ => none⟩ : GmpeData).store im).isSome).map
        fun im => get_multivariate_ll
          ((fun _ : String => (⟨0, fun j => j.elim0⟩ : MvPack)) im).ev).sum) :=
  have hmem : "PGA" ∈ (⟨["PGA"], fun _ => none⟩ : GmpeData).imts :=
    List.mem_singleton.mpr rfl
  ⟨hmem, rfl,
    (c10_multivariate_none ⟨["PGA"], fun _ => none⟩
      (fun _ => ⟨0, fun j => j.elim0⟩) "PGA" hmem rfl).1,
    (c10_multivariate_none ⟨["PGA"], fun _ => none⟩
      (fun _ => ⟨0, fun j => j.elim0⟩) "PGA" hmem rfl).2.1,
    (c10_multivariate_none ⟨["PGA"], fun _ => none⟩
      (fun _ => ⟨0, fun j => j.elim0⟩) "PGA" hmem rfl).2.2⟩

/-- Members of the zip of a list with its image are the graph pairs. -/
theorem mem_zip_map_self {α β : Type} (g : α → β) (l : List α) (p : α × β)
    (hp : p ∈ l.zip (l.map g)) : ∃ a ∈ l, p = (a, g a) := by
  induction l with
  | nil => cases hp
  | cons x xs ih =>
      simp only [List.map_cons, List.zip_cons_cons, List.mem_cons] at hp
      rcases hp with hp | hp
      · exact ⟨x, by simp, hp⟩
      · obtain ⟨a, ha, hpa⟩ := ih hp
        exact ⟨a, by simp [ha], hpa⟩

/-- The unnormalised weights are positive and sum to a positive value. -/
theorem model_weights_pos_sum (llhs : List ℝ) (h : llhs ≠ []) :
    0 < (llhs.map fun L => (2 : ℝ) ^ (-L)).sum := by
  apply List.sum_pos
  · intro x hx
    obtain ⟨L, _, hL⟩ := List.mem_map.mp hx
    rw [← hL]
    exact Real.rpow_pos_of_pos (by norm_num) _
  · simp only [ne_eq, List.map_eq_nil_iff]
    exact h

/-- Sums distribute over an element-wise division. -/
theorem sum_map_div (l : List ℝ) (S : ℝ) :
    (l.map fun w => w / S).sum = l.sum / S := by
  induction l with
  | nil => simp
  | cons x xs ih => simp [ih, add_div]

/-- The normalised model weights sum to one. -/
theorem model_weights_sum (llhs : List ℝ) (h : llhs ≠ []) :
    (model_weights llhs).sum = 1 := by
  have hS := model_weights_pos_sum llhs h
  simp only [model_weights]
  rw [sum_map_div, div_self (ne_of_gt hS)]

/-- Each model's weight is its `2^(-LLH)` value divided by the total. -/
theorem model_weights_formula (llhs : List ℝ) (p : ℝ × ℝ)
    (hp : p ∈ llhs.zip (model_weights llhs)) :
    p.2 = (2 : ℝ) ^ (-p.1) / (llhs.map fun L => (2 : ℝ) ^ (-L)).sum := by
  have h2 : model_weights llhs =
      llhs.map (fun L =>
        (2 : ℝ) ^ (-L) / (llhs.map fun L => (2 : ℝ) ^ (-L)).sum) := by
    simp only [model_weights]
    rw [List.map_map]
    rfl
  rw [h2] at hp
  obtain ⟨a, _, hpa⟩ := mem_zip_map_self _ llhs p hp
  rw [hpa]

/-- C7: the model weights returned by `get_loglikelihood_values` equal
`2^(-LLH_all)` per model normalised to sum to one across models, and for any
two models the one with the strictly lower aggregate (`"All"`) LLH receives
the strictly higher weight. -/
theorem c7_llh_weights (gs : List GmpeData) (imts : List String)
    (hne : gs ≠ []) :
    (get_loglikelihood_weights gs imts).sum = 1 ∧
    (∀ p ∈ (gs.map fun g => llh_all g imts).zip
        (get_loglikelihood_weights gs imts),
      p.2 = (2 : ℝ) ^ (-p.1) /
        ((gs.map fun g => llh_all g imts).map fun L => (2 : ℝ) ^ (-L)).sum) ∧
    (∀ p ∈ (gs.map fun g => llh_all g imts).zip
        (get_loglikelihood_weights gs imts),
      ∀ q ∈ (gs.map fun g => llh_all g imts).zip
        (get_loglikelihood_weights gs imts),
      p.1 < q.1 → q.2 < p.2) := by
  have hllhs : gs.map (fun g => llh_all g imts) ≠ [] := by
    simp only [ne_eq, List.map_eq_nil_iff]
    exact hne
  refine ⟨model_weights_sum _ hllhs,
    fun p hp => model_weights_formula _ p hp, ?_⟩
  intro p hp q hq hpq
  have hfp := model_weights_formula _ p hp
  have hfq := model_weights_formula _ q hq
  rw [hfp, hfq, div_lt_div_iff_of_pos_right (model_weights_pos_sum _ hllhs)]
  exact (Real.rpow_lt_rpow_left_iff (by norm_num)).mpr (neg_lt_neg hpq)

/-- Witness for C7 at a concrete two-model list. -/
theorem c7_llh_weights_witness :
    (([⟨[], fun _ => none⟩, ⟨[], fun _ => none⟩] : List GmpeData) ≠ []) ∧
    ((get_loglikelihood_weights
        [⟨[], fun _ => none⟩, ⟨[], fun _ => none⟩] []).sum = 1 ∧
    (∀ p ∈ (([⟨[], fun _ => none⟩, ⟨[], fun _ => none⟩] :
          List GmpeData).map fun g => llh_all g []).zip
        (get_loglikelihood_weights
          [⟨[], fun _ => none⟩, ⟨[], fun _ => none⟩] []),
      p.2 = (2 : ℝ) ^ (-p.1) /
        ((([⟨[], fun _ => none⟩, ⟨[], fun _ => none⟩] :
            List GmpeData).map fun g => llh_all g []).map
          fun L => (2 : ℝ) ^ (-L)).sum) ∧
    (∀ p ∈ (([⟨[], fun _ => none⟩, ⟨[], fun _ => none⟩] :
          List GmpeData).map fun g => llh_all g []).zip
        (get_loglikelihood_weights
          [⟨[], fun _ => none⟩, ⟨[], fun _ => none⟩] []),
      ∀ q ∈ (([⟨[], fun _ => none⟩, ⟨[], fun _ => none⟩] :
          List GmpeData).map fun g => llh_all g []).zip
        (get_loglikelihood_weights
          [⟨[], fun _ => none⟩, ⟨[], fun _ => none⟩] []),
      p.1 < q.1 → q.2 < p.2)) :=
  ⟨List.cons_ne_nil _ _,
    c7_llh_weights [⟨[], fun _ => none⟩, ⟨[], fun _ => none⟩] []
      (List.cons_ne_nil _ _)⟩

/-- A fold over `Option` fails as soon as the traversal reaches an element on
which the step always fails. -/
theorem foldlM_option_none {α β : Type} (f : β → α → Option β) (l : List α)
    (x : α) (hfx : ∀ b, f b x = none) :
    ∀ b, x ∈ l → l.foldlM f b = none := by
  induction l with
  | nil => intro b hx; cases hx
  | cons y ys ih =>
      intro b hx
      rcases List.mem_cons.mp hx with hxy | hxy
      · subst hxy
        simp [List.foldlM_cons, hfx b]
      · rcases hfy : f b y with _ | b'
        · simp [List.foldlM_cons, hfy]
        · simp only [List.foldlM_cons, hfy, Option.bind_eq_bind,
            Option.some_bind]
          exact ih b' hxy

/-- The EDR information gathering fails whenever some context's expected cell
for some requested IMT is inapplicable. -/
theorem edr_information_fails (imts : List String) (contexts : List EdrCtx)
    (imtx : String) (c : EdrCtx) (himt : imtx ∈ imts) (hc : c ∈ contexts)
    (hnone : c.expectedOf imtx = none) :
    _get_edr_gmpe_information imts contexts = none := by
  unfold _get_edr_gmpe_information
  exact foldlM_option_none _ _ (imtx, c) (fun b => by simp [hnone]) _
    (List.mem_flatMap.mpr ⟨imtx, himt, List.mem_map.mpr ⟨c, hc, rfl⟩⟩)

/-- C6 counterexample: with the single IMT `"SA(10.0)"` marked inapplicable
(`None`) for the model, the descriptive statistics silently skip the pair
(empty output, no error), but the EDR information gathering does not skip it:
it fails (the unguarded `None["Mean"]` access raises), refuting the claim that
every statistics operation including EDR skips the pair without error. -/
theorem c6_counterexample :
    get_residual_statistics ⟨["SA(10.0)"], fun _ => none⟩ = [] ∧
    _get_edr_gmpe_information ["SA(10.0)"]
      [⟨fun _ => [1], fun _ => none⟩] = none :=
  ⟨rfl, rfl⟩

/-- C6 amended: a (model, IMT) pair whose period lies outside the model's
range is marked `None` everywhere downstream; the descriptive statistics and
likelihood loops skip it without error (the pair appears in no output entry),
the log-likelihood loop leaves its initialised `None` entry, the multivariate
log-likelihood gives it the value `0.0` — but EDR does not skip it: the
information-gathering step fails on the `None` expected cell. -/
theorem c6_none_handling (g : GmpeData) (ctxs : String → MvPack)
    (imts2 : List String) (contexts : List EdrCtx) (imtx : String)
    (hnone : g.store imtx = none) (hmem : imtx ∈ g.imts)
    (hmem2 : imtx ∈ imts2) (c : EdrCtx) (hc : c ∈ contexts)
    (hcnone : c.expectedOf imtx = none) :
    (∀ s ∈ get_residual_statistics g, s.1 ≠ imtx) ∧
    (∀ s ∈ get_likelihood_values g, s.1 ≠ imtx) ∧
    ((imtx, (none : Option ℝ)) ∈ llh_per_imt g imts2) ∧
    ((imtx, (0 : ℝ)) ∈ get_multivariate_llh_per_imt g ctxs) ∧
    _get_edr_gmpe_information g.imts contexts = none := by
  have hstat : ∀ {β : Type} (f : StoreEntry → β) (s : String × β),
      s ∈ (g.imts.filterMap fun im => (g.store im).map fun e => (im, f e)) →
      s.1 ≠ imtx := by
    intro β f s hs h1
    obtain ⟨a, ha, hfa⟩ := List.mem_filterMap.mp hs
    rcases hsa : g.store a with _ | e
    · rw [hsa] at hfa; cases hfa
    · rw [hsa] at hfa
      simp only [Option.map_some', Option.some.injEq] at hfa
      rw [← hfa] at h1
      have h2 : a = imtx := h1
      rw [h2] at hsa
      rw [hsa] at hnone
      cases hnone
  refine ⟨fun s hs => hstat get_residual_statistics_for s hs,
    fun s hs => hstat _get_likelihood_values_for s hs, ?_, ?_, ?_⟩
  · unfold llh_per_imt
    refine List.mem_map.mpr ⟨imtx, hmem2, ?_⟩
    rw [if_pos hmem, hnone]
  · unfold get_multivariate_llh_per_imt
    refine List.mem_map.mpr ⟨imtx, hmem, ?_⟩
    rw [hnone]
  · exact edr_information_fails g.imts contexts imtx c hmem hc hcnone

/-- Witness for C6 amended at a concrete one-IMT, one-context setup. -/
theorem c6_none_handling_witness :
    ((⟨["SA(10.0)"], fun _ => none⟩ : GmpeData).store "SA(10.0)" = none) ∧
    ("SA(10.0)" ∈ (⟨["SA(10.0)"], fun _ => none⟩ : GmpeData).imts) ∧
    ("SA(10.0)" ∈ ["SA(10.0)"]) ∧
    ((⟨fun _ => [1], fun _ => none⟩ : EdrCtx) ∈
      [(⟨fun _ => [1], fun _ => none⟩ : EdrCtx)]) ∧
    ((⟨fun _ => [1], fun _ => none⟩ : EdrCtx).expectedOf "SA(10.0)" = none) ∧
    ((∀ s ∈ get_residual_statistics ⟨["SA(10.0)"], fun _ => none⟩,
        s.1 ≠ "SA(10.0)") ∧
      (∀ s ∈ get_likelihood_values ⟨["SA(10.0)"], fun _ => none⟩,
        s.1 ≠ "SA(10.0)") ∧
      (("SA(10.0)", (none : Option ℝ)) ∈
        llh_per_imt ⟨["SA(10.0)"], fun _ => none⟩ ["SA(10.0)"]) ∧
      (("SA(10.0)", (0 : ℝ)) ∈ get_multivariate_llh_per_imt
        ⟨["SA(10.0)"], fun _ => none⟩ (fun _ => ⟨0, fun j => j.elim0⟩)) ∧
      _get_edr_gmpe_information
        (⟨["SA(10.0)"], fun _ => none⟩ : GmpeData).imts
        [⟨fun _ => [1], fun _ => none⟩] = none) :=
  ⟨rfl, List.mem_singleton.mpr rfl, List.mem_singleton.mpr rfl,
    List.mem_singleton.mpr rfl, rfl,
    c6_none_handling ⟨["SA(10.0)"], fun _ => none⟩
      (fun _ => ⟨0, fun j => j.elim0⟩) ["SA(10.0)"]
      [⟨fun _ => [1], fun _ => none⟩] "SA(10.0)" rfl
      (List.mem_singleton.mpr rfl) (List.mem_singleton.mpr rfl)
      ⟨fun _ => [1], fun _ => none⟩ (List.mem_singleton.mpr rfl) rfl⟩

end Theorems

end GmpeSmtk
